import Mathlib

/-!
# Runner6: combinatorial jet grouping and Z-boson pair selection

A shallow embedding of `Runner6.cpp`.  The program reads simulated detector
events, keeps the events with exactly one photon and at least two jets,
enumerates every way of choosing `r = 1 .. jetN/2` jets out of `jetN`, sums the
4-vectors of the chosen jets (`Z1`) and of the remaining jets (`Z2`), and records
the invariant mass of `Z1 + Z2` whenever both masses lie in the window
`(ZMass - margin, ZMass + margin)`.

Modelling conventions:

* `std::string` of `char` is a `List Nat`; `vector<int>` is a `List Nat`;
  `vector<vector<int>>` is a `List (List Nat)`.
* `TLorentzVector` comes from the analysis framework.  It is a parameter `V`
  with an addition and a zero (the default-constructed vector); its invariant
  mass `M()` is a parameter `M : V → K` into an ordered field `K`.  Arithmetic on
  masses is exact.
* The histogram is the sequence of values handed to `Fill`, oldest first.
* The `do … while (prev_permutation …)` loop is run with a bound on the number
  of iterations; `none` means the bound was exhausted.  The bound is shown to be
  never reached.
-/

namespace ParticleX

/-! ## `std::prev_permutation` -/

/-- First loop of `std::prev_permutation`: starting with `ii` at the last
position, step `ii` and `i = ii - 1` downwards until `s[ii] < s[i]`; the result
is that `i`, or `none` when `i` reaches the first position without such a pair. -/
def findPivot (s : List Nat) : Nat → Option Nat
  | 0 => none
  | ii + 1 => if s.getD (ii + 1) 0 < s.getD ii 0 then some ii else findPivot s ii

/-- Second loop of `std::prev_permutation`: `j` starts at `last` and is
decremented until `s[j] < x`, where `x` is the pivot value `s[i]`. -/
def findSwap (s : List Nat) (x : Nat) : Nat → Nat
  | 0 => 0
  | j + 1 => if s.getD j 0 < x then j else findSwap s x j

/-- The algorithm `std::prev_permutation(s.begin(), s.end())` of the C++ standard
library: find the last position `i` with `s[i+1] < s[i]`, the last position `j`
with `s[j] < s[i]`, swap the two and reverse the range after `i`; the result is
`true` with the rearranged range.  When there is no such `i` the whole range is
reversed and the result is `false`. -/
def prev_permutation (s : List Nat) : Bool × List Nat :=
  match findPivot s (s.length - 1) with
  | none => (false, s.reverse)
  | some i =>
    let j := findSwap s (s.getD i 0) s.length
    let s1 := (s.set i (s.getD j 0)).set j (s.getD i 0)
    (true, s1.take (i + 1) ++ (s1.drop (i + 1)).reverse)

/-! ## `comb` -/

/-- The call `s.resize(n, c)` of `std::string`: truncate to `n` characters or pad
with copies of `c` up to `n` characters. -/
def resize (s : List Nat) (n c : Nat) : List Nat :=
  s.take n ++ List.replicate (n - s.length) c

/-- Body of the `do` loop of `comb`: the vector `v` of the positions `i < N`
with `s[i]` non-zero, in the order of the `for` loop. -/
def selected (N : Nat) (s : List Nat) : List Nat :=
  (List.range N).filter (fun i => s.getD i 0 != 0)

/-- The `do … while (prev_permutation(s.begin(), s.end()))` loop of `comb`, with
a bound on the number of iterations (`none` when the bound is exhausted). -/
def combLoop (N : Nat) : Nat → List Nat → List (List Nat) → Option (List (List Nat))
  | 0, _, _ => none
  | fuel + 1, s, combList =>
    match prev_permutation s with
    | (true, s') => combLoop N fuel s' (combList ++ [selected N s])
    | (false, _) => some (combList ++ [selected N s])

/-- The function `comb(N, r, combList)` for non-negative `N` and `r`: the result
is the new content of `combList`.  The string starts as `r` characters `1`,
resized to `N` characters with `0`.  The loop bound `2 ^ N` is the number of
strings of `N` characters over two symbols. -/
def comb (N r : Nat) (combList : List (List Nat)) : Option (List (List Nat)) :=
  combLoop N (2 ^ N) (resize (List.replicate r 1) N 0) combList

/-! ## The event loop of `Runner6` -/

section Event

variable {V : Type} [AddCommMonoid V] {K : Type} [LinearOrderedField K]

/-- The constant `ZMass`, the accepted mass of the Z boson. -/
def ZMass : K := 91.1876

/-- The constant `margin` around `ZMass`. -/
def margin : K := 10.0

/-- One entry of the chain, as far as the loop body reads it: the number of
entries of the photon branch, and `jet->P4()` for every entry of the jet branch
(the array `jetsLV`; `jetN` is its length). -/
structure Event (V : Type) where
  photons : Nat
  jets : List V

/-- The state the event loop updates: the values passed to `hist->Fill`, oldest
first, and the counter `proper_events` (an `int`, taken without overflow). -/
structure State (K : Type) where
  hist : List K
  proper_events : Nat

/-- The "skip event conditions": photon count different from 1, or jet count
below 2. -/
def skipEvent (photonN jetN : Nat) : Bool :=
  photonN != 1 || decide (jetN < 2)

/-- Construction of `combList` for an event with `jetN` jets:
`for (i = 1; i <= jetN/2; ++i) comb(jetN, i, combList);` on an empty vector. -/
def combListOf (jetN : Nat) : Option (List (List Nat)) :=
  (List.range' 1 (jetN / 2)).foldlM (fun combList i => comb jetN i combList) []

/-- The vector `Z1` after its loop: the sum of `jetsLV[c[j]]` over the positions
`j` of the combination `c`, starting from the zero vector. -/
def Z1 (jetsLV : List V) (c : List Nat) : V :=
  c.foldl (fun z k => z + jetsLV.getD k 0) 0

/-- The vector `Z2` after its loop: the sum of `jetsLV[j]` over the `j < jetN`
that `find` does not locate in the combination `c`. -/
def Z2 (jetsLV : List V) (c : List Nat) : V :=
  (List.range jetsLV.length).foldl (fun z j => if j ∈ c then z else z + jetsLV.getD j 0) 0

/-- The acceptance test on the two groups. -/
def accept (M : V → K) (z1 z2 : V) : Bool :=
  decide (ZMass - margin < M z1) && decide (M z1 < ZMass + margin) &&
  decide (ZMass - margin < M z2) && decide (M z2 < ZMass + margin)

/-- Does the combination `c` pass the acceptance test for the jets `jetsLV`? -/
def accepts (M : V → K) (jetsLV : List V) (c : List Nat) : Bool :=
  accept M (Z1 jetsLV c) (Z2 jetsLV c)

/-- One iteration of the loop over `combList`: on acceptance `X += Z1 + Z2` (on
the zero vector), `hist->Fill(X.M())` and `proper_events += 1`. -/
def evalComb (M : V → K) (jetsLV : List V) (st : State K) (c : List Nat) : State K :=
  if accepts M jetsLV c then
    { hist := st.hist ++ [M (0 + (Z1 jetsLV c + Z2 jetsLV c))],
      proper_events := st.proper_events + 1 }
  else st

/-- The loop over all entries of `combList`. -/
def evalCombs (M : V → K) (jetsLV : List V) (combList : List (List Nat)) (st : State K) :
    State K :=
  combList.foldl (evalComb M jetsLV) st

/-- The body of the event loop after `ReadEntry`: skip the event, or build
`combList` and evaluate its entries. -/
def processEvent (M : V → K) (st : State K) (ev : Event V) : Option (State K) :=
  if skipEvent ev.photons ev.jets.length then some st
  else
    match combListOf ev.jets.length with
    | none => none
    | some combList => some (evalCombs M ev.jets combList st)

/-- The progress-bar condition `entry % (allEntries/100) == 0`; `none` when the
divisor is zero. -/
def progressCheck (entry allEntries : Nat) : Option Bool :=
  if allEntries / 100 = 0 then none else some (entry % (allEntries / 100) == 0)

/-- The loop `for (entry = 0; entry < allEntries; ++entry)` from the iteration
`entry` on, over the entries of the chain not yet read.  The result is `none`
when the progress-bar condition divides by zero (or a loop bound is
exhausted). -/
def eventLoop (M : V → K) (allEntries : Nat) :
    Nat → List (Event V) → State K → Option (State K)
  | _, [], st => some st
  | entry, ev :: rest, st =>
    match progressCheck entry allEntries with
    | none => none
    | some _ =>
      match processEvent M st ev with
      | none => none
      | some st' => eventLoop M allEntries (entry + 1) rest st'

/-- The macro `Runner6` on a chain of events: with `sample_percent = 100` the
bound `allEntries` is the number of entries of the chain; `proper_events` starts
at 0 and the histogram is empty.  The result is the state at the summary
output. -/
def Runner6 (M : V → K) (chain : List (Event V)) : Option (State K) :=
  eventLoop M chain.length 0 chain { hist := [], proper_events := 0 }

/-- The value printed as "Percentage of such events":
`100.0*proper_events/allEntries`. -/
def percentage (proper_events allEntries : Nat) : ℚ :=
  100 * (proper_events : ℚ) / (allEntries : ℚ)

end Event

/-! ## Reference enumeration -/

/-- Reference enumeration used in the proofs: the strings of length `n` over
`0`, `1` with exactly `r` ones, in decreasing lexicographic order. -/
def bitStrings : Nat → Nat → List (List Nat)
  | 0, 0 => [[]]
  | 0, _ + 1 => []
  | n + 1, 0 => [List.replicate (n + 1) 0]
  | n + 1, r + 1 => (bitStrings n r).map (List.cons 1) ++ (bitStrings n (r + 1)).map (List.cons 0)

/-- Reference enumeration used in the proofs: the ascending sequences of `r`
indices below `n`, in increasing lexicographic order. -/
def subsetsAsc : Nat → Nat → List (List Nat)
  | 0, 0 => [[]]
  | 0, _ + 1 => []
  | _ + 1, 0 => [[]]
  | n + 1, r + 1 =>
    (subsetsAsc n r).map (fun c => 0 :: c.map Nat.succ) ++
      (subsetsAsc n (r + 1)).map (fun c => c.map Nat.succ)

/-- The other side of the bipartition given by the combination `c` of an event
with `jetN` jets: the indices below `jetN` that are not in `c`, ascending. -/
def complement (jetN : Nat) (c : List Nat) : List Nat :=
  (List.range jetN).filter (fun j => decide (j ∉ c))

/-- Number of entries of the combination list of an event that pass the
acceptance test; 0 for a skipped event. -/
def acceptedCount {V : Type} [AddCommMonoid V] {K : Type} [LinearOrderedField K]
    (M : V → K) (ev : Event V) : Nat :=
  if skipEvent ev.photons ev.jets.length then 0
  else
    match combListOf ev.jets.length with
    | none => 0
    | some combList => combList.countP (accepts M ev.jets)

/-- Number of events of a chain that pass the skip filter and have at least one
accepting combination. -/
def matchingEvents {V : Type} [AddCommMonoid V] {K : Type} [LinearOrderedField K]
    (M : V → K) (chain : List (Event V)) : Nat :=
  chain.countP (fun ev => decide (0 < acceptedCount M ev))

/-- The two comparisons of the acceptance test on one invariant mass `m`:
`(ZMass-margin) < m && m < (ZMass+margin)`. -/
def inWindow {K : Type} [LinearOrderedField K] (m : K) : Prop :=
  ZMass - margin < m ∧ m < ZMass + margin

/-- A concrete instance for evaluation: jets at rest, given by their energy, for
which the invariant mass of a sum of jets is its energy. -/
def restMass (e : ℚ) : ℚ := e

/-! ## Lemmas on `prev_permutation` -/

theorem findPivot_cons (a : Nat) (t : List Nat) (k : Nat) :
    findPivot (a :: t) (k + 1) =
      match findPivot t k with
      | some i => some (i + 1)
      | none => if t.getD 0 0 < a then some 0 else none := by
  induction k with
  | zero => simp [findPivot]
  | succ k ih =>
    rw [findPivot, ih, findPivot.eq_2 t k]
    simp only [List.getD_cons_succ]
    by_cases h : t.getD (k + 1) 0 < t.getD k 0
    · rw [if_pos h, if_pos h]
    · rw [if_neg h, if_neg h]

theorem findPivot_some {s : List Nat} {m i : Nat} (h : findPivot s m = some i) :
    i < m ∧ s.getD (i + 1) 0 < s.getD i 0 := by
  induction m with
  | zero => simp [findPivot] at h
  | succ m ih =>
    rw [findPivot] at h
    by_cases hc : s.getD (m + 1) 0 < s.getD m 0
    · rw [if_pos hc] at h
      cases h
      exact ⟨Nat.lt_succ_self _, hc⟩
    · rw [if_neg hc] at h
      exact ⟨Nat.lt_succ_of_lt (ih h).1, (ih h).2⟩

theorem exists_lt_of_not_last {P : Nat → Prop} {k : Nat} (h : ∃ i, i < k + 1 ∧ P i)
    (hk : ¬ P k) : ∃ i, i < k ∧ P i := by
  obtain ⟨i, hi, hx⟩ := h
  refine ⟨i, ?_, hx⟩
  rcases Nat.lt_succ_iff_lt_or_eq.mp hi with h1 | h1
  · exact h1
  · subst h1; exact absurd hx hk

theorem findSwap_cons (a : Nat) (t : List Nat) (x : Nat) (k : Nat)
    (h : ∃ i, i < k ∧ t.getD i 0 < x) :
    findSwap (a :: t) x (k + 1) = findSwap t x k + 1 := by
  induction k with
  | zero => obtain ⟨i, hi, _⟩ := h; omega
  | succ k ih =>
    rw [findSwap, findSwap.eq_2 t x k]
    simp only [List.getD_cons_succ]
    by_cases hc : t.getD k 0 < x
    · rw [if_pos hc, if_pos hc]
    · rw [if_neg hc, if_neg hc]
      exact ih (exists_lt_of_not_last h hc)

theorem findSwap_spec (s : List Nat) (x : Nat) (k : Nat)
    (h : ∃ i, i < k ∧ s.getD i 0 < x) :
    findSwap s x k < k ∧ s.getD (findSwap s x k) 0 < x := by
  induction k with
  | zero => obtain ⟨i, hi, _⟩ := h; omega
  | succ k ih =>
    rw [findSwap]
    by_cases hc : s.getD k 0 < x
    · rw [if_pos hc]
      exact ⟨Nat.lt_succ_self _, hc⟩
    · rw [if_neg hc]
      have h2 := ih (exists_lt_of_not_last h hc)
      exact ⟨Nat.lt_succ_of_lt h2.1, h2.2⟩

/-- When the tail has a previous permutation, the step happens in the tail. -/
theorem prev_permutation_cons_of_true (a : Nat) (t : List Nat)
    (h : (prev_permutation t).1 = true) :
    prev_permutation (a :: t) = (true, a :: (prev_permutation t).2) := by
  unfold prev_permutation at h ⊢
  cases hp : findPivot t (t.length - 1) with
  | none => rw [hp] at h; simp at h
  | some i =>
    obtain ⟨hi, hlt⟩ := findPivot_some hp
    have hlen : (a :: t).length - 1 = (t.length - 1) + 1 := by
      simp; omega
    have hex : ∃ k, k < t.length ∧ t.getD k 0 < t.getD i 0 := ⟨i + 1, by omega, hlt⟩
    rw [hlen, findPivot_cons, hp]
    simp only [List.length_cons, List.getD_cons_succ]
    rw [findSwap_cons a t _ _ hex]
    simp

/-- When the tail is non-decreasing and starts below `a`, the head is swapped
with the last smaller character and the tail is reversed. -/
theorem prev_permutation_cons_of_false (a : Nat) (t : List Nat)
    (h : (prev_permutation t).1 = false) (hlt : t.getD 0 0 < a) (hne : t ≠ []) :
    prev_permutation (a :: t) =
      (true, t.getD (findSwap t a t.length) 0 :: (t.set (findSwap t a t.length) a).reverse) := by
  unfold prev_permutation at h ⊢
  cases hp : findPivot t (t.length - 1) with
  | some i => rw [hp] at h; simp at h
  | none =>
    have hpos : 0 < t.length := List.length_pos.mpr hne
    have hlen : (a :: t).length - 1 = (t.length - 1) + 1 := by
      simp; omega
    have hex : ∃ k, k < t.length ∧ t.getD k 0 < a := ⟨0, hpos, hlt⟩
    rw [hlen, findPivot_cons, hp]
    simp only [if_pos hlt, List.length_cons, List.getD_cons_zero]
    rw [findSwap_cons a t _ _ hex]
    simp

/-- When the tail is non-decreasing and does not start below `a`, there is no
previous permutation. -/
theorem prev_permutation_cons_none (a : Nat) (t : List Nat)
    (h : (prev_permutation t).1 = false) (hlt : t ≠ [] → ¬ t.getD 0 0 < a) :
    (prev_permutation (a :: t)).1 = false := by
  unfold prev_permutation at h ⊢
  cases hp : findPivot t (t.length - 1) with
  | some i => rw [hp] at h; simp at h
  | none =>
    cases t with
    | nil => simp [findPivot]
    | cons b u =>
      have hlen : (a :: b :: u).length - 1 = ((b :: u).length - 1) + 1 := by simp
      rw [hlen, findPivot_cons, hp]
      simp only [if_neg (hlt (List.cons_ne_nil b u))]

theorem findSwap_skip (s : List Nat) (x m : Nat) (k : Nat)
    (hhi : ∀ i, m + 1 ≤ i → i < m + 1 + k → ¬ s.getD i 0 < x) (hm : s.getD m 0 < x) :
    findSwap s x (m + 1 + k) = m := by
  induction k with
  | zero => rw [Nat.add_zero, findSwap, if_pos hm]
  | succ k ih =>
    rw [← Nat.add_assoc, findSwap, if_neg (hhi _ (by omega) (by omega))]
    exact ih (fun i h1 h2 => hhi i h1 (by omega))

/-- The non-decreasing string `0…01…1` has no previous permutation. -/
theorem prev_permutation_sorted (m k : Nat) :
    (prev_permutation (List.replicate m 0 ++ List.replicate k 1)).1 = false := by
  induction m with
  | zero =>
    simp only [List.replicate_zero, List.nil_append]
    induction k with
    | zero => decide
    | succ k ih =>
      rw [List.replicate_succ]
      apply prev_permutation_cons_none _ _ ih
      intro hne
      cases k with
      | zero => exact absurd rfl hne
      | succ k => simp [List.replicate_succ]
  | succ m ih =>
    rw [List.replicate_succ, List.cons_append]
    exact prev_permutation_cons_none _ _ ih (fun _ => Nat.not_lt_zero _)

/-- The step from the last string starting with `1` to the first string starting
with `0`. -/
theorem prev_permutation_junction (m k : Nat) :
    prev_permutation (1 :: (List.replicate (m + 1) 0 ++ List.replicate k 1)) =
      (true, 0 :: (List.replicate (k + 1) 1 ++ List.replicate m 0)) := by
  have hsw : findSwap (List.replicate (m + 1) 0 ++ List.replicate k 1) 1
      (List.replicate (m + 1) 0 ++ List.replicate k 1).length = m := by
    have hl : (List.replicate (m + 1) 0 ++ List.replicate k 1).length = m + 1 + k := by simp
    rw [hl]
    apply findSwap_skip
    · intro i h1 h2
      rw [List.getD_append_right _ _ _ _ (by simpa using h1)]
      simp only [List.length_replicate, List.getD_eq_getElem?_getD]
      rw [List.getElem?_replicate, if_pos (by omega)]
      simp
    · rw [List.getD_append _ _ _ _ (by simp)]
      simp
  rw [prev_permutation_cons_of_false 1 _ (prev_permutation_sorted (m + 1) k)
    (by simp [List.replicate_succ]) (by simp [List.replicate_succ]), hsw]
  have h0 : (List.replicate (m + 1) 0 ++ List.replicate k 1).getD m 0 = 0 := by
    rw [List.getD_append _ _ _ _ (by simp)]
    simp
  have hset : (List.replicate (m + 1) 0 ++ List.replicate k 1).set m 1 =
      List.replicate m 0 ++ List.replicate (k + 1) 1 := by
    rw [List.replicate_succ' m 0, List.append_assoc]
    rw [List.set_append_right _ _ (by simp)]
    simp [List.replicate_succ]
  rw [h0, hset]
  simp

/-! ## The loop of `comb` walks through the reference enumeration -/

theorem bitStrings_eq_nil {n r : Nat} (h : n < r) : bitStrings n r = [] := by
  induction n generalizing r with
  | zero =>
    cases r with
    | zero => omega
    | succ r => rfl
  | succ n ih =>
    cases r with
    | zero => omega
    | succ r =>
      rw [bitStrings, ih (by omega : n < r), ih (by omega : n < r + 1)]
      rfl

theorem bitStrings_head {n r : Nat} (h : r ≤ n) :
    (bitStrings n r).head? = some (List.replicate r 1 ++ List.replicate (n - r) 0) := by
  induction n generalizing r with
  | zero =>
    obtain rfl : r = 0 := by omega
    rfl
  | succ n ih =>
    cases r with
    | zero => simp [bitStrings]
    | succ r =>
      rw [bitStrings, List.head?_append, List.head?_map, ih (by omega : r ≤ n)]
      simp [List.replicate_succ]

theorem bitStrings_getLast {n r : Nat} (h : r ≤ n) :
    (bitStrings n r).getLast? = some (List.replicate (n - r) 0 ++ List.replicate r 1) := by
  induction n generalizing r with
  | zero =>
    obtain rfl : r = 0 := by omega
    rfl
  | succ n ih =>
    cases r with
    | zero => simp [bitStrings]
    | succ r =>
      rw [bitStrings, List.getLast?_append, List.getLast?_map, List.getLast?_map]
      rcases Nat.lt_or_ge n (r + 1) with h1 | h1
      · have hr : r = n := by omega
        subst hr
        rw [bitStrings_eq_nil h1, ih (Nat.le_refl _)]
        simp [List.replicate_succ]
      · rw [ih h1]
        have : n + 1 - (r + 1) = (n - (r + 1)) + 1 := by omega
        simp [this, List.replicate_succ]

/-- Consecutive strings of the reference enumeration are one
`prev_permutation` step apart. -/
theorem bitStrings_chain (n r : Nat) :
    List.Chain' (fun a b => prev_permutation a = (true, b)) (bitStrings n r) := by
  induction n generalizing r with
  | zero =>
    cases r with
    | zero => exact List.chain'_singleton _
    | succ r => exact List.chain'_nil
  | succ n ih =>
    cases r with
    | zero => exact List.chain'_singleton _
    | succ r =>
      rw [bitStrings, List.chain'_append]
      refine ⟨?_, ?_, ?_⟩
      · rw [List.chain'_map]
        refine (ih r).imp ?_
        intro a b hab
        rw [prev_permutation_cons_of_true 1 a (by rw [hab]), hab]
      · rw [List.chain'_map]
        refine (ih (r + 1)).imp ?_
        intro a b hab
        rw [prev_permutation_cons_of_true 0 a (by rw [hab]), hab]
      · intro x hx y hy
        rcases Nat.lt_or_ge n (r + 1) with h1 | h1
        · rw [bitStrings_eq_nil h1] at hy
          simp at hy
        · rw [List.getLast?_map, bitStrings_getLast (by omega : r ≤ n)] at hx
          rw [List.head?_map, bitStrings_head h1] at hy
          simp only [Option.map_some', Option.mem_def, Option.some.injEq] at hx hy
          subst hx
          subst hy
          have hm : n - r = (n - (r + 1)) + 1 := by omega
          rw [hm]
          exact prev_permutation_junction (n - (r + 1)) r

/-- Running the loop of `comb` from the first string of a chain of
`prev_permutation` steps that ends in a string without previous permutation
appends the selection of every string of the chain. -/
theorem combLoop_chain (N : Nat) (l : List (List Nat)) (s : List Nat)
    (hc : List.Chain' (fun a b => prev_permutation a = (true, b)) (s :: l))
    (hlast : (prev_permutation ((s :: l).getLast (List.cons_ne_nil s l))).1 = false)
    (fuel : Nat) (hf : l.length < fuel) (combList : List (List Nat)) :
    combLoop N fuel s combList = some (combList ++ (s :: l).map (selected N)) := by
  induction l generalizing s fuel combList with
  | nil =>
    cases fuel with
    | zero => simp at hf
    | succ fuel =>
      simp only [List.getLast_singleton] at hlast
      rw [combLoop]
      cases hp : prev_permutation s with
      | mk b s' =>
        rw [hp] at hlast
        simp only at hlast
        subst hlast
        simp
  | cons t l ih =>
    cases fuel with
    | zero => simp at hf
    | succ fuel =>
      rw [List.chain'_cons] at hc
      rw [combLoop, hc.1]
      simp only
      rw [ih t hc.2 (by simpa [List.getLast_cons] using hlast) fuel (by simpa using hf)]
      simp

theorem choose_le_two_pow (n r : Nat) : n.choose r ≤ 2 ^ n := by
  induction n generalizing r with
  | zero =>
    cases r with
    | zero => simp
    | succ r => simp
  | succ n ih =>
    cases r with
    | zero => simpa using Nat.one_le_two_pow
    | succ r =>
      rw [Nat.choose_succ_succ, Nat.pow_succ]
      have h1 := ih r
      have h2 := ih (r + 1)
      simp only [Nat.succ_eq_add_one]
      omega

theorem bitStrings_length (n r : Nat) : (bitStrings n r).length = n.choose r := by
  induction n generalizing r with
  | zero =>
    cases r with
    | zero => rfl
    | succ r => rfl
  | succ n ih =>
    cases r with
    | zero => simp [bitStrings]
    | succ r =>
      rw [bitStrings, List.length_append, List.length_map, List.length_map, ih, ih,
        Nat.choose_succ_succ]

theorem selected_cons (n b : Nat) (t : List Nat) :
    selected (n + 1) (b :: t) =
      (if b ≠ 0 then [0] else []) ++ (selected n t).map Nat.succ := by
  unfold selected
  rw [List.range_succ_eq_map, List.filter_cons, List.filter_map]
  by_cases hb : b = 0
  · subst hb
    simp [Function.comp_def]
  · simp [hb, Function.comp_def]

theorem selected_replicate_zero (n m : Nat) : selected n (List.replicate m 0) = [] := by
  unfold selected
  rw [List.filter_eq_nil_iff]
  intro i _
  simp only [List.getD_eq_getElem?_getD, List.getElem?_replicate]
  split <;> simp

/-- The selections of the reference strings are the reference index sequences. -/
theorem map_selected_bitStrings (n r : Nat) :
    (bitStrings n r).map (selected n) = subsetsAsc n r := by
  induction n generalizing r with
  | zero =>
    cases r with
    | zero => rfl
    | succ r => rfl
  | succ n ih =>
    cases r with
    | zero => simp [bitStrings, subsetsAsc, selected_replicate_zero]
    | succ r =>
      rw [bitStrings, subsetsAsc, List.map_append, List.map_map, List.map_map, ← ih r,
        ← ih (r + 1), List.map_map, List.map_map]
      congr 1
      · apply List.map_congr_left
        intro a _
        simp [selected_cons]
      · apply List.map_congr_left
        intro a _
        simp [selected_cons]

theorem resize_replicate (r N : Nat) :
    resize (List.replicate r 1) N 0 =
      List.replicate (min r N) 1 ++ List.replicate (N - min r N) 0 := by
  unfold resize
  rw [List.take_replicate, List.length_replicate, Nat.min_comm]
  congr 2
  omega

/-- Closed form of `comb`: the loop never exhausts its bound, the previous
entries of `combList` stay, and the reference enumeration is appended. -/
theorem comb_eq (N r : Nat) (combList : List (List Nat)) :
    comb N r combList = some (combList ++ subsetsAsc N (min r N)) := by
  have hk : min r N ≤ N := Nat.min_le_right _ _
  have hhead := bitStrings_head hk
  have hlast := bitStrings_getLast hk
  have hchain := bitStrings_chain N (min r N)
  have hlen := bitStrings_length N (min r N)
  cases hb : bitStrings N (min r N) with
  | nil => rw [hb] at hhead; simp at hhead
  | cons s l =>
    rw [hb] at hhead hlast hchain hlen
    simp only [List.head?_cons, Option.some.injEq] at hhead
    rw [List.getLast?_eq_getLast _ (List.cons_ne_nil s l), Option.some.injEq] at hlast
    unfold comb
    rw [resize_replicate, ← hhead]
    rw [combLoop_chain N l s hchain (by rw [hlast]; exact prev_permutation_sorted _ _) (2 ^ N)
      ?_ combList, ← hb, map_selected_bitStrings]
    have h2 : N.choose (min r N) ≤ 2 ^ N := choose_le_two_pow _ _
    simp only [List.length_cons] at hlen
    omega

theorem comb_eq_of_le {N r : Nat} (h : r ≤ N) (combList : List (List Nat)) :
    comb N r combList = some (combList ++ subsetsAsc N r) := by
  rw [comb_eq, Nat.min_eq_left h]

/-! ## The reference index sequences -/

theorem subsetsAsc_length (n r : Nat) : (subsetsAsc n r).length = n.choose r := by
  rw [← map_selected_bitStrings, List.length_map, bitStrings_length]

theorem exists_map_succ (l : List Nat) (h : ∀ x ∈ l, 0 < x) :
    ∃ d : List Nat, l = d.map Nat.succ := by
  induction l with
  | nil => exact ⟨[], rfl⟩
  | cons a l ih =>
    obtain ⟨d, hd⟩ := ih (fun x hx => h x (List.mem_cons_of_mem _ hx))
    have ha : 0 < a := h a (List.mem_cons_self _ _)
    refine ⟨(a - 1) :: d, ?_⟩
    rw [List.map_cons, ← hd]
    congr 1
    omega

theorem pairwise_map_succ (d : List Nat) :
    (d.map Nat.succ).Pairwise (· < ·) ↔ d.Pairwise (· < ·) := by
  rw [List.pairwise_map]
  simp

/-- The entries of the reference enumeration are exactly the strictly ascending
sequences of `r` indices below `n`. -/
theorem mem_subsetsAsc (n r : Nat) (c : List Nat) :
    c ∈ subsetsAsc n r ↔ c.length = r ∧ c.Pairwise (· < ·) ∧ ∀ x ∈ c, x < n := by
  induction n generalizing r c with
  | zero =>
    cases r with
    | zero =>
      simp only [subsetsAsc, List.mem_singleton]
      constructor
      · rintro rfl; simp
      · rintro ⟨h, _⟩; exact List.length_eq_zero.mp h
    | succ r =>
      simp only [subsetsAsc, List.not_mem_nil, false_iff]
      rintro ⟨hl, _, hb⟩
      cases c with
      | nil => simp at hl
      | cons a c => exact absurd (hb a (List.mem_cons_self _ _)) (Nat.not_lt_zero _)
  | succ n ih =>
    cases r with
    | zero =>
      simp only [subsetsAsc, List.mem_singleton]
      constructor
      · rintro rfl; simp
      · rintro ⟨h, _⟩; exact List.length_eq_zero.mp h
    | succ r =>
      simp only [subsetsAsc, List.mem_append, List.mem_map]
      constructor
      · rintro (⟨d, hd, rfl⟩ | ⟨d, hd, rfl⟩)
        · obtain ⟨h1, h2, h3⟩ := (ih r d).mp hd
          refine ⟨by simp [h1], ?_, ?_⟩
          · rw [List.pairwise_cons, pairwise_map_succ]
            refine ⟨?_, h2⟩
            intro x hx
            obtain ⟨y, _, rfl⟩ := List.mem_map.mp hx
            exact Nat.succ_pos _
          · intro x hx
            rcases List.mem_cons.mp hx with rfl | hx
            · exact Nat.succ_pos _
            · obtain ⟨y, hy, rfl⟩ := List.mem_map.mp hx
              exact Nat.succ_lt_succ (h3 y hy)
        · obtain ⟨h1, h2, h3⟩ := (ih (r + 1) d).mp hd
          refine ⟨by simp [h1], (pairwise_map_succ d).mpr h2, ?_⟩
          intro x hx
          obtain ⟨y, hy, rfl⟩ := List.mem_map.mp hx
          exact Nat.succ_lt_succ (h3 y hy)
      · rintro ⟨hl, hp, hb⟩
        cases c with
        | nil => simp at hl
        | cons a c =>
          rw [List.pairwise_cons] at hp
          rcases Nat.eq_zero_or_pos a with ha | ha
          · subst ha
            left
            obtain ⟨d, rfl⟩ := exists_map_succ c (fun x hx => hp.1 x hx)
            refine ⟨d, (ih r d).mpr ⟨by simpa using hl, (pairwise_map_succ d).mp hp.2, ?_⟩, rfl⟩
            intro y hy
            exact Nat.lt_of_succ_lt_succ
              (hb _ (List.mem_cons_of_mem _ (List.mem_map_of_mem _ hy)))
          · right
            obtain ⟨d, hd⟩ := exists_map_succ (a :: c) (by
              intro x hx
              rcases List.mem_cons.mp hx with rfl | hx
              · exact ha
              · exact Nat.lt_trans ha (hp.1 x hx))
            refine ⟨d, (ih (r + 1) d).mpr ⟨?_, ?_, ?_⟩, hd.symm⟩
            · rw [hd] at hl; simpa using hl
            · rw [← pairwise_map_succ, ← hd, List.pairwise_cons]; exact hp
            · intro y hy
              refine Nat.lt_of_succ_lt_succ (hb _ ?_)
              rw [hd]
              exact List.mem_map_of_mem _ hy

theorem subsetsAsc_nodup (n r : Nat) : (subsetsAsc n r).Nodup := by
  induction n generalizing r with
  | zero =>
    cases r with
    | zero => simp [subsetsAsc]
    | succ r => simp [subsetsAsc]
  | succ n ih =>
    cases r with
    | zero => simp [subsetsAsc]
    | succ r =>
      rw [subsetsAsc, List.nodup_append]
      refine ⟨?_, ?_, ?_⟩
      · refine (ih r).map ?_
        intro a b hab
        simp only [List.cons.injEq, true_and] at hab
        exact List.map_injective_iff.mpr Nat.succ_injective hab
      · exact (ih (r + 1)).map (List.map_injective_iff.mpr Nat.succ_injective)
      · intro x hx hy
        obtain ⟨a, _, rfl⟩ := List.mem_map.mp hx
        obtain ⟨b, _, hb⟩ := List.mem_map.mp hy
        cases b with
        | nil => simp at hb
        | cons b0 b => simp at hb

/-- An ascending sequence is determined by its set of entries. -/
theorem eq_of_toFinset_eq {a b : List Nat} (ha : a.Pairwise (· < ·)) (hb : b.Pairwise (· < ·))
    (h : a.toFinset = b.toFinset) : a = b := by
  have hna : a.Nodup := ha.imp (fun h => Nat.ne_of_lt h)
  have hnb : b.Nodup := hb.imp (fun h => Nat.ne_of_lt h)
  have hperm : a.Perm b := (List.perm_ext_iff_of_nodup hna hnb).mpr (by
    intro x
    rw [← List.mem_toFinset, h, List.mem_toFinset])
  exact List.eq_of_perm_of_sorted hperm ha hb

/-- The ascending listing of a set of `r` indices below `n` belongs to the
reference enumeration. -/
theorem sort_mem_subsetsAsc {n : Nat} {S : Finset Nat} (hS : S ⊆ Finset.range n) :
    S.sort (· ≤ ·) ∈ subsetsAsc n S.card := by
  rw [mem_subsetsAsc]
  refine ⟨Finset.length_sort _, Finset.sort_sorted_lt S, ?_⟩
  intro x hx
  exact Finset.mem_range.mp (hS ((Finset.mem_sort _).mp hx))

/-! ## The combination list of an event -/

theorem foldlM_comb (N : Nat) (l : List Nat) (hl : ∀ i ∈ l, i ≤ N) (combList : List (List Nat)) :
    l.foldlM (fun combList i => comb N i combList) combList =
      some (combList ++ l.flatMap (subsetsAsc N)) := by
  induction l generalizing combList with
  | nil => simp
  | cons i l ih =>
    rw [List.foldlM_cons, comb_eq_of_le (hl i (List.mem_cons_self _ _))]
    show List.foldlM (fun combList i => comb N i combList) (combList ++ subsetsAsc N i) l = _
    rw [ih (fun j hj => hl j (List.mem_cons_of_mem _ hj))]
    simp

/-- Closed form of the combination list of an event with `jetN` jets. -/
theorem combListOf_eq (jetN : Nat) :
    combListOf jetN = some ((List.range' 1 (jetN / 2)).flatMap (subsetsAsc jetN)) := by
  unfold combListOf
  rw [foldlM_comb]
  · simp
  · intro i hi
    rw [List.mem_range'_1] at hi
    have := Nat.div_le_self jetN 2
    omega

theorem mem_combListOf {jetN : Nat} {L : List (List Nat)} (hL : combListOf jetN = some L)
    (c : List Nat) :
    c ∈ L ↔ (1 ≤ c.length ∧ c.length ≤ jetN / 2) ∧ c.Pairwise (· < ·) ∧ ∀ x ∈ c, x < jetN := by
  rw [combListOf_eq, Option.some.injEq] at hL
  subst hL
  simp only [List.mem_flatMap, List.mem_range'_1, mem_subsetsAsc]
  constructor
  · rintro ⟨r, hr, h1, h2, h3⟩
    exact ⟨by omega, h2, h3⟩
  · rintro ⟨h1, h2, h3⟩
    exact ⟨c.length, by omega, rfl, h2, h3⟩

/-! ## Sums of jets -/

section Sums

variable {V : Type} [AddCommMonoid V] {K : Type} [LinearOrderedField K]

theorem foldl_add_eq (f : Nat → V) (c : List Nat) (a : V) :
    c.foldl (fun z k => z + f k) a = a + (c.map f).sum := by
  induction c generalizing a with
  | nil => simp
  | cons k c ih => rw [List.foldl_cons, ih, List.map_cons, List.sum_cons, add_assoc]

theorem foldl_skip_eq (f : Nat → V) (c l : List Nat) (a : V) :
    l.foldl (fun z j => if j ∈ c then z else z + f j) a =
      a + ((l.filter (fun j => decide (j ∉ c))).map f).sum := by
  induction l generalizing a with
  | nil => simp
  | cons j l ih =>
    rw [List.foldl_cons, ih, List.filter_cons]
    by_cases hj : j ∈ c
    · simp [hj]
    · simp [hj, add_assoc]

theorem Z1_eq (jetsLV : List V) (c : List Nat) :
    Z1 jetsLV c = (c.map (fun k => jetsLV.getD k 0)).sum := by
  unfold Z1
  rw [foldl_add_eq, zero_add]

theorem Z2_eq (jetsLV : List V) (c : List Nat) :
    Z2 jetsLV c =
      (((List.range jetsLV.length).filter (fun j => decide (j ∉ c))).map
        (fun k => jetsLV.getD k 0)).sum := by
  unfold Z2
  rw [foldl_skip_eq, zero_add]

theorem map_getD_range (l : List V) :
    (List.range l.length).map (fun k => l.getD k 0) = l := by
  apply List.ext_getElem
  · simp
  · intro n h1 h2
    simp at h1
    simp [h1]

/-- The two groups of a combination of distinct valid indices add up to the sum
of all jets. -/
theorem Z1_add_Z2 (jetsLV : List V) (c : List Nat) (hnd : c.Nodup)
    (hb : ∀ x ∈ c, x < jetsLV.length) : Z1 jetsLV c + Z2 jetsLV c = jetsLV.sum := by
  rw [Z1_eq, Z2_eq]
  have h1 : c.Perm ((List.range jetsLV.length).filter (fun j => decide (j ∈ c))) := by
    rw [List.perm_ext_iff_of_nodup hnd ((List.nodup_range _).filter _)]
    intro x
    simp only [List.mem_filter, List.mem_range, decide_eq_true_eq]
    exact ⟨fun h => ⟨hb x h, h⟩, fun h => h.2⟩
  have h2 := List.filter_append_perm (fun j => decide (j ∈ c)) (List.range jetsLV.length)
  rw [(h1.map _).sum_eq, ← List.sum_append, ← List.map_append]
  have h3 : (fun j => decide (j ∉ c)) = (fun j => !decide (j ∈ c)) := by
    funext j; simp
  rw [h3, (h2.map _).sum_eq, map_getD_range]

end Sums

/-! ## The loop over the combinations and the event loop -/

section Loop

variable {V : Type} [AddCommMonoid V] {K : Type} [LinearOrderedField K]

theorem evalCombs_nil (M : V → K) (jetsLV : List V) (st : State K) :
    evalCombs M jetsLV [] st = st := rfl

theorem evalCombs_cons (M : V → K) (jetsLV : List V) (c : List Nat) (L : List (List Nat))
    (st : State K) :
    evalCombs M jetsLV (c :: L) st = evalCombs M jetsLV L (evalComb M jetsLV st c) := rfl

/-- The histogram after the loop over the combinations: one value per accepting
entry, in the order of the list. -/
theorem evalCombs_hist (M : V → K) (jetsLV : List V) (L : List (List Nat)) (st : State K) :
    (evalCombs M jetsLV L st).hist =
      st.hist ++ (L.filter (accepts M jetsLV)).map
        (fun c => M (0 + (Z1 jetsLV c + Z2 jetsLV c))) := by
  induction L generalizing st with
  | nil => simp [evalCombs_nil]
  | cons c L ih =>
    rw [evalCombs_cons, ih, List.filter_cons]
    unfold evalComb
    by_cases hc : accepts M jetsLV c = true
    · simp [hc]
    · simp [hc]

/-- The counter after the loop over the combinations: one increment per
accepting entry. -/
theorem evalCombs_count (M : V → K) (jetsLV : List V) (L : List (List Nat)) (st : State K) :
    (evalCombs M jetsLV L st).proper_events =
      st.proper_events + L.countP (accepts M jetsLV) := by
  induction L generalizing st with
  | nil => simp [evalCombs_nil]
  | cons c L ih =>
    rw [evalCombs_cons, ih, List.countP_cons]
    unfold evalComb
    by_cases hc : accepts M jetsLV c = true
    · simp [hc]; omega
    · simp [hc]

theorem processEvent_skip (M : V → K) (st : State K) (ev : Event V)
    (h : skipEvent ev.photons ev.jets.length = true) : processEvent M st ev = some st := by
  unfold processEvent
  rw [if_pos h]

theorem processEvent_run (M : V → K) (st : State K) (ev : Event V)
    (h : skipEvent ev.photons ev.jets.length = false) {L : List (List Nat)}
    (hL : combListOf ev.jets.length = some L) :
    processEvent M st ev = some (evalCombs M ev.jets L st) := by
  unfold processEvent
  rw [if_neg (by simp [h]), hL]

theorem skipEvent_eq_false (photonN jetN : Nat) :
    skipEvent photonN jetN = false ↔ photonN = 1 ∧ 2 ≤ jetN := by
  unfold skipEvent
  simp

/-- Every event is handled, and `proper_events` grows by the number of accepting
combinations of the event. -/
theorem processEvent_count (M : V → K) (st : State K) (ev : Event V) :
    ∃ st', processEvent M st ev = some st' ∧
      st'.proper_events = st.proper_events + acceptedCount M ev := by
  cases h : skipEvent ev.photons ev.jets.length with
  | true =>
    refine ⟨st, processEvent_skip M st ev h, ?_⟩
    simp [acceptedCount, h]
  | false =>
    refine ⟨_, processEvent_run M st ev h (combListOf_eq _), ?_⟩
    rw [evalCombs_count]
    simp [acceptedCount, h, combListOf_eq]

/-- With at least 100 entries the event loop runs to its end, and `proper_events`
grows by the number of accepting combinations of all events read. -/
theorem eventLoop_count (M : V → K) (allEntries : Nat) (h : 100 ≤ allEntries)
    (chain : List (Event V)) (entry : Nat) (st : State K) :
    ∃ st', eventLoop M allEntries entry chain st = some st' ∧
      st'.proper_events = st.proper_events + (chain.map (acceptedCount M)).sum := by
  induction chain generalizing entry st with
  | nil => exact ⟨st, rfl, by simp⟩
  | cons ev rest ih =>
    obtain ⟨st1, h1, h2⟩ := processEvent_count M st ev
    obtain ⟨st2, h3, h4⟩ := ih (entry + 1) st1
    refine ⟨st2, ?_, ?_⟩
    · rw [eventLoop]
      have hd : allEntries / 100 ≠ 0 := by
        have := Nat.div_pos h (by decide : 0 < 100)
        omega
      simp only [progressCheck, if_neg hd, h1]
      exact h3
    · rw [h4, h2, List.map_cons, List.sum_cons, Nat.add_assoc]

end Loop

theorem sort_mem_combListOf {N : Nat} {L : List (List Nat)} (hL : combListOf N = some L)
    {S : Finset Nat} (hS : S ⊆ Finset.range N) (h1 : 1 ≤ S.card) (h2 : S.card ≤ N / 2) :
    S.sort (· ≤ ·) ∈ L := by
  rw [mem_combListOf hL]
  refine ⟨by rw [Finset.length_sort]; exact ⟨h1, h2⟩, Finset.sort_sorted_lt S, ?_⟩
  intro x hx
  exact Finset.mem_range.mp (hS ((Finset.mem_sort _).mp hx))

theorem complement_toFinset (N : Nat) (c : List Nat) :
    (complement N c).toFinset = Finset.range N \ c.toFinset := by
  ext x
  simp [complement]

/-- An ascending sequence of indices below `N` is the ascending listing of the
indices below `N` that belong to it. -/
theorem filter_mem_eq_self {N : Nat} {c : List Nat} (hp : c.Pairwise (· < ·))
    (hb : ∀ x ∈ c, x < N) : (List.range N).filter (fun j => decide (j ∈ c)) = c := by
  apply eq_of_toFinset_eq _ hp
  · ext x
    simp only [List.mem_toFinset, List.mem_filter, List.mem_range, decide_eq_true_eq]
    exact ⟨fun h => h.2, fun h => ⟨hb x h, h⟩⟩
  · exact (List.pairwise_lt_range N).filter _

/-! ## The claims -/

/-- C1 (combination completeness): for `r ≤ N` (in particular `1 ≤ r ≤ N`),
`comb(N, r, combList)` on an empty `combList` returns exactly `C(N,r)` entries;
the entries are pairwise distinct, as sequences and as sets; each is a set of `r`
indices below `N`; and every `r`-element subset of `{0,…,N-1}` is the set of one
of the entries. -/
theorem comb_complete (N r : Nat) (h : r ≤ N) :
    ∃ L, comb N r [] = some L ∧ L.length = N.choose r ∧ L.Nodup ∧
      (L.map List.toFinset).Nodup ∧
      (∀ c ∈ L, c.toFinset ⊆ Finset.range N ∧ c.toFinset.card = r) ∧
      ∀ S : Finset Nat, S ⊆ Finset.range N → S.card = r → ∃ c ∈ L, c.toFinset = S := by
  refine ⟨subsetsAsc N r, by rw [comb_eq_of_le h]; rfl, subsetsAsc_length N r,
    subsetsAsc_nodup N r, ?_, ?_, ?_⟩
  · refine List.Nodup.map_on ?_ (subsetsAsc_nodup N r)
    intro a ha b hb hab
    exact eq_of_toFinset_eq ((mem_subsetsAsc N r a).mp ha).2.1
      ((mem_subsetsAsc N r b).mp hb).2.1 hab
  · intro c hc
    obtain ⟨h1, h2, h3⟩ := (mem_subsetsAsc N r c).mp hc
    constructor
    · intro x hx
      exact Finset.mem_range.mpr (h3 x (List.mem_toFinset.mp hx))
    · rw [List.toFinset_card_of_nodup (h2.imp (fun h => Nat.ne_of_lt h)), h1]
  · intro S hS hcard
    refine ⟨S.sort (· ≤ ·), ?_, Finset.sort_toFinset _ S⟩
    rw [← hcard]
    exact sort_mem_subsetsAsc hS

/-- Instance for `N = 4`, `r = 2`. -/
theorem comb_complete_witness :
    2 ≤ 4 ∧ ∃ L, comb 4 2 [] = some L ∧ L.length = (4).choose 2 ∧ L.Nodup ∧
      (L.map List.toFinset).Nodup ∧
      (∀ c ∈ L, c.toFinset ⊆ Finset.range 4 ∧ c.toFinset.card = 2) ∧
      ∀ S : Finset Nat, S ⊆ Finset.range 4 → S.card = 2 → ∃ c ∈ L, c.toFinset = S :=
  ⟨by decide, comb_complete 4 2 (by decide)⟩

/-- C2 (bipartition exhaustiveness): for every jet count `N` (in particular
`N ≥ 2`; below 2 there is nothing to represent) the combination list of an event
holds, for every non-empty proper subset `S` of `{0,…,N-1}`, the ascending
listing of `S` or of its complement; for `N = 3` the list is `{0},{1},{2}`, with
complements `{1,2}`, `{0,2}`, `{0,1}`. -/
theorem bipartition_exhaustive (N : Nat) :
    (∃ L, combListOf N = some L ∧
      ∀ S : Finset Nat, S.Nonempty → S ⊂ Finset.range N →
        S.sort (· ≤ ·) ∈ L ∨ (Finset.range N \ S).sort (· ≤ ·) ∈ L) ∧
    combListOf 3 = some [[0], [1], [2]] ∧
    [[0], [1], [2]].map (complement 3) = [[1, 2], [0, 2], [0, 1]] := by
  refine ⟨⟨_, combListOf_eq N, ?_⟩, by decide, by decide⟩
  intro S hne hss
  have h1 : 1 ≤ S.card := Finset.card_pos.mpr hne
  have h2 : S.card < N := by
    have := Finset.card_lt_card hss
    rwa [Finset.card_range] at this
  rcases Nat.lt_or_ge (N / 2) S.card with h3 | h3
  · right
    have hc : (Finset.range N \ S).card = N - S.card := by
      rw [Finset.card_sdiff hss.subset, Finset.card_range]
    apply sort_mem_combListOf (combListOf_eq N) Finset.sdiff_subset
    · rw [hc]; omega
    · rw [hc]; omega
  · left
    exact sort_mem_combListOf (combListOf_eq N) hss.subset h1 h3

section EventClaims

variable {V : Type} [AddCommMonoid V] {K : Type} [LinearOrderedField K]

/-- C3 (skip correctness): an event with exactly one photon and at least two
jets is processed: its non-empty combination list is built and every entry is
evaluated.  An event with a photon count other than 1 or fewer than 2 jets (for
instance 1 photon and 1 jet) is skipped: whatever the mass function, the
histogram and the counter are returned unchanged. -/
theorem skip_correct (M : V → K) (st : State K) (ev : Event V) :
    (skipEvent ev.photons ev.jets.length = false ↔ ev.photons = 1 ∧ 2 ≤ ev.jets.length) ∧
    (ev.photons = 1 ∧ 2 ≤ ev.jets.length →
      ∃ L, combListOf ev.jets.length = some L ∧ L ≠ [] ∧
        processEvent M st ev = some (evalCombs M ev.jets L st)) ∧
    (ev.photons ≠ 1 ∨ ev.jets.length < 2 → processEvent M st ev = some st) ∧
    (ev.photons = 1 ∧ ev.jets.length = 1 → processEvent M st ev = some st) := by
  have hskip : ev.photons ≠ 1 ∨ ev.jets.length < 2 → processEvent M st ev = some st := by
    intro h
    apply processEvent_skip
    cases hs : skipEvent ev.photons ev.jets.length with
    | true => rfl
    | false =>
      rw [skipEvent_eq_false] at hs
      omega
  refine ⟨skipEvent_eq_false _ _, ?_, hskip, fun h => hskip (Or.inr (by omega))⟩
  intro h
  refine ⟨_, combListOf_eq _, ?_, processEvent_run M st ev ((skipEvent_eq_false _ _).mpr h)
    (combListOf_eq _)⟩
  intro hnil
  have hmem : [0] ∈ (List.range' 1 (ev.jets.length / 2)).flatMap (subsetsAsc ev.jets.length) := by
    rw [mem_combListOf (combListOf_eq ev.jets.length)]
    simp
    omega
  rw [hnil] at hmem
  simp at hmem

/-- C4 (no early exit): processing an event with one photon and at least two jets
appends to the histogram as many values as there are entries of the combination
list that pass the acceptance test (with multiplicity), and `proper_events`
grows by the same number. -/
theorem no_early_exit (M : V → K) (st : State K) (ev : Event V)
    (h1 : ev.photons = 1) (h2 : 2 ≤ ev.jets.length) :
    ∃ L st' added, combListOf ev.jets.length = some L ∧ processEvent M st ev = some st' ∧
      st'.hist = st.hist ++ added ∧
      added.length = L.countP (accepts M ev.jets) ∧
      st'.proper_events = st.proper_events + L.countP (accepts M ev.jets) := by
  refine ⟨_, _, _, combListOf_eq _,
    processEvent_run M st ev ((skipEvent_eq_false _ _).mpr ⟨h1, h2⟩) (combListOf_eq _),
    evalCombs_hist M ev.jets _ st, ?_, evalCombs_count M ev.jets _ st⟩
  rw [List.length_map, List.countP_eq_length_filter]

/-- Instance for an event with one photon and two jets at rest of energy 91. -/
theorem no_early_exit_witness :
    ((1 : Nat) = 1 ∧ 2 ≤ 2) ∧
    ∃ L st' added, combListOf 2 = some L ∧
      processEvent restMass { hist := [], proper_events := 0 }
        { photons := 1, jets := [91, 91] } = some st' ∧
      st'.hist = [] ++ added ∧
      added.length = L.countP (accepts restMass [91, 91]) ∧
      st'.proper_events = 0 + L.countP (accepts restMass [91, 91]) :=
  ⟨⟨rfl, by decide⟩,
    no_early_exit restMass { hist := [], proper_events := 0 }
      { photons := 1, jets := [91, 91] } rfl (by decide)⟩

/-- C5 (partition completeness): for an event with one photon and at least two
jets and every entry `C` of its combination list, `Z1 + Z2` is the sum of all jet
4-vectors; every value the event adds to the histogram is the invariant mass of
that sum, the same for every accepting combination. -/
theorem partition_complete (M : V → K) (st : State K) (ev : Event V)
    (h1 : ev.photons = 1) (h2 : 2 ≤ ev.jets.length) :
    ∃ L st', combListOf ev.jets.length = some L ∧
      (∀ c ∈ L, Z1 ev.jets c + Z2 ev.jets c = ev.jets.sum) ∧
      (∀ c ∈ L, M (0 + (Z1 ev.jets c + Z2 ev.jets c)) = M ev.jets.sum) ∧
      processEvent M st ev = some st' ∧
      st'.hist = st.hist ++ List.replicate (L.countP (accepts M ev.jets)) (M ev.jets.sum) := by
  have hsum : ∀ c ∈ (List.range' 1 (ev.jets.length / 2)).flatMap (subsetsAsc ev.jets.length),
      Z1 ev.jets c + Z2 ev.jets c = ev.jets.sum := by
    intro c hc
    obtain ⟨_, hp, hb⟩ := (mem_combListOf (combListOf_eq ev.jets.length) c).mp hc
    exact Z1_add_Z2 ev.jets c (hp.imp (fun h => Nat.ne_of_lt h)) hb
  refine ⟨_, _, combListOf_eq _, hsum, ?_,
    processEvent_run M st ev ((skipEvent_eq_false _ _).mpr ⟨h1, h2⟩) (combListOf_eq _), ?_⟩
  · intro c hc
    rw [zero_add, hsum c hc]
  · rw [evalCombs_hist, List.countP_eq_length_filter]
    congr 1
    rw [List.eq_replicate_iff]
    refine ⟨by simp, ?_⟩
    intro x hx
    obtain ⟨c, hc, rfl⟩ := List.mem_map.mp hx
    rw [zero_add, hsum c (List.mem_filter.mp hc).1]

/-- Instance for an event with one photon and three jets at rest of energies 91,
45 and 46. -/
theorem partition_complete_witness :
    ((1 : Nat) = 1 ∧ 2 ≤ 3) ∧
    ∃ L st', combListOf 3 = some L ∧
      (∀ c ∈ L, Z1 [91, 45, 46] c + Z2 [91, 45, 46] c = ([91, 45, 46] : List ℚ).sum) ∧
      (∀ c ∈ L, restMass (0 + (Z1 [91, 45, 46] c + Z2 [91, 45, 46] c)) =
        restMass ([91, 45, 46] : List ℚ).sum) ∧
      processEvent restMass { hist := [], proper_events := 0 }
        { photons := 1, jets := [91, 45, 46] } = some st' ∧
      st'.hist = [] ++ List.replicate (L.countP (accepts restMass [91, 45, 46]))
        (restMass ([91, 45, 46] : List ℚ).sum) :=
  ⟨⟨rfl, by decide⟩,
    partition_complete restMass { hist := [], proper_events := 0 }
      { photons := 1, jets := [91, 45, 46] } rfl (by decide)⟩

/-- C7 (window symmetry): the acceptance test gives the same result when its two
groups are swapped; and for an ascending sequence `C` of valid jet indices (in
particular a non-empty proper subset of the indices of `N ≥ 2` jets), the
complement has `Z1` equal to the `Z2` of `C` and `Z2` equal to the `Z1` of `C`,
so that `C` and its complement get the same accept/reject decision. -/
theorem window_symmetry (M : V → K) (jetsLV : List V) (c : List Nat)
    (hp : c.Pairwise (· < ·)) (hb : ∀ x ∈ c, x < jetsLV.length) :
    (∀ z1 z2 : V, accept M z1 z2 = accept M z2 z1) ∧
    Z1 jetsLV (complement jetsLV.length c) = Z2 jetsLV c ∧
    Z2 jetsLV (complement jetsLV.length c) = Z1 jetsLV c ∧
    accepts M jetsLV (complement jetsLV.length c) = accepts M jetsLV c := by
  have hsym : ∀ z1 z2 : V, accept M z1 z2 = accept M z2 z1 := by
    intro z1 z2
    unfold accept
    cases decide (ZMass - margin < M z1) <;> cases decide (M z1 < ZMass + margin) <;>
      cases decide (ZMass - margin < M z2) <;> cases decide (M z2 < ZMass + margin) <;> rfl
  have h12 : Z1 jetsLV (complement jetsLV.length c) = Z2 jetsLV c := by
    rw [Z1_eq, Z2_eq]
    rfl
  have h21 : Z2 jetsLV (complement jetsLV.length c) = Z1 jetsLV c := by
    rw [Z1_eq, Z2_eq]
    have hf : (List.range jetsLV.length).filter
        (fun j => decide (j ∉ complement jetsLV.length c)) = c := by
      refine Eq.trans ?_ (filter_mem_eq_self hp hb)
      apply List.filter_congr
      intro x hx
      simp only [complement, List.mem_filter, List.mem_range, decide_eq_true_eq,
        decide_eq_decide]
      rw [List.mem_range] at hx
      tauto
    rw [hf]
  refine ⟨hsym, h12, h21, ?_⟩
  unfold accepts
  rw [h12, h21, hsym]

/-- Instance for three jets at rest and the combination `{0}`. -/
theorem window_symmetry_witness :
    (([0] : List Nat).Pairwise (· < ·) ∧ ∀ x ∈ ([0] : List Nat), x < 3) ∧
    ((∀ z1 z2 : ℚ, accept restMass z1 z2 = accept restMass z2 z1) ∧
    Z1 ([91, 45, 46] : List ℚ) (complement 3 [0]) = Z2 [91, 45, 46] [0] ∧
    Z2 ([91, 45, 46] : List ℚ) (complement 3 [0]) = Z1 [91, 45, 46] [0] ∧
    accepts restMass [91, 45, 46] (complement 3 [0]) = accepts restMass [91, 45, 46] [0]) :=
  ⟨⟨by simp, by simp⟩, window_symmetry restMass [91, 45, 46] [0] (by simp) (by simp)⟩

end EventClaims

/-- C6 (strict mass window): with `ZMass = 91.1876` and `margin = 10.0` a pair of
groups is accepted exactly when both invariant masses lie strictly between
81.1876 and 101.1876; a mass equal to either end of the window rejects the pair,
and a group of mass 101.0 is accepted when the other group is inside the
window. -/
theorem strict_window {V : Type} {K : Type} [LinearOrderedField K] (M : V → K) (z1 z2 : V) :
    ((ZMass : K) = 91.1876 ∧ (margin : K) = 10.0) ∧
    (accept M z1 z2 = true ↔
      (81.1876 < M z1 ∧ M z1 < 101.1876) ∧ (81.1876 < M z2 ∧ M z2 < 101.1876)) ∧
    (M z1 = 101.1876 ∨ M z1 = 81.1876 ∨ M z2 = 101.1876 ∨ M z2 = 81.1876 →
      accept M z1 z2 = false) ∧
    (M z1 = 101.0 → 81.1876 < M z2 → M z2 < 101.1876 → accept M z1 z2 = true) := by
  have hlo : (ZMass : K) - margin = 81.1876 := by
    unfold ZMass margin; norm_num
  have hhi : (ZMass : K) + margin = 101.1876 := by
    unfold ZMass margin; norm_num
  have hiff : accept M z1 z2 = true ↔
      (81.1876 < M z1 ∧ M z1 < 101.1876) ∧ (81.1876 < M z2 ∧ M z2 < 101.1876) := by
    unfold accept
    rw [hlo, hhi]
    simp only [Bool.and_eq_true, decide_eq_true_eq]
    tauto
  refine ⟨⟨rfl, rfl⟩, hiff, ?_, ?_⟩
  · intro h
    rw [← Bool.not_eq_true, hiff]
    rintro ⟨⟨h1, h2⟩, h3, h4⟩
    rcases h with h | h | h | h
    · rw [h] at h2; exact lt_irrefl _ h2
    · rw [h] at h1; exact lt_irrefl _ h1
    · rw [h] at h4; exact lt_irrefl _ h4
    · rw [h] at h3; exact lt_irrefl _ h3
  · intro h h3 h4
    rw [hiff, h]
    refine ⟨⟨?_, ?_⟩, h3, h4⟩ <;> norm_num


/-- C8 (well-formed combinations): for `r ≤ N` (in particular `1 ≤ r ≤ N`) every
entry that `comb(N, r, combList)` appends is a sequence of exactly `r` indices,
each below `N`, in strictly ascending order, hence without repetition. -/
theorem comb_wellformed (N r : Nat) (h : r ≤ N) (combList : List (List Nat)) :
    ∃ L, comb N r combList = some (combList ++ L) ∧
      ∀ c ∈ L, c.length = r ∧ (∀ x ∈ c, x < N) ∧ c.Pairwise (· < ·) ∧ c.Nodup := by
  refine ⟨subsetsAsc N r, comb_eq_of_le h combList, ?_⟩
  intro c hc
  obtain ⟨h1, h2, h3⟩ := (mem_subsetsAsc N r c).mp hc
  exact ⟨h1, h3, h2, h2.imp (fun h => Nat.ne_of_lt h)⟩

/-- Instance for `N = 4`, `r = 2` and a list that already holds two entries. -/
theorem comb_wellformed_witness :
    2 ≤ 4 ∧ ∃ L, comb 4 2 [[0], [1]] = some ([[0], [1]] ++ L) ∧
      ∀ c ∈ L, c.length = 2 ∧ (∀ x ∈ c, x < 4) ∧ c.Pairwise (· < ·) ∧ c.Nodup :=
  ⟨by decide, comb_wellformed 4 2 (by decide) [[0], [1]]⟩

/-- C9 (combination-set invariant): every entry `C` of the combination list of an
event with `N` jets (`N ≥ 2` for a processed event) has between 1 and
`floor(N/2)` indices, without repetition; it is a non-empty proper subset of the
indices below `N`; its complement is non-empty, disjoint from `C`, and covers
the other indices.  The list is built by calling `comb(N, r, …)` for the `r` of
the loop only, and each of them satisfies `1 ≤ r ≤ floor(N/2) ≤ N`, so `r = 0`
and `r > N` do not occur. -/
theorem combination_invariant (N : Nat) :
    (∃ L, combListOf N = some L ∧
      ∀ c ∈ L, (1 ≤ c.length ∧ c.length ≤ N / 2) ∧ c.Nodup ∧ c.toFinset.Nonempty ∧
        c.toFinset ⊂ Finset.range N ∧ complement N c ≠ [] ∧
        (∀ j ∈ complement N c, j ∉ c) ∧ (∀ j, j < N → j ∈ c ∨ j ∈ complement N c)) ∧
    combListOf N = (List.range' 1 (N / 2)).foldlM (fun combList r => comb N r combList) [] ∧
    (∀ r ∈ List.range' 1 (N / 2), (1 ≤ r ∧ r ≤ N / 2 ∧ N / 2 ≤ N) ∧ r ≠ 0 ∧ ¬ N < r) := by
  refine ⟨⟨_, combListOf_eq N, ?_⟩, rfl, ?_⟩
  · intro c hc
    obtain ⟨hlen, hp, hb⟩ := (mem_combListOf (combListOf_eq N) c).mp hc
    have hnd : c.Nodup := hp.imp (fun h => Nat.ne_of_lt h)
    have hcard : c.toFinset.card = c.length := List.toFinset_card_of_nodup hnd
    have hsub : c.toFinset ⊆ Finset.range N := by
      intro x hx
      exact Finset.mem_range.mpr (hb x (List.mem_toFinset.mp hx))
    have hlt : c.length < N := by omega
    refine ⟨hlen, hnd, ?_, ?_, ?_, ?_, ?_⟩
    · rw [← Finset.card_pos, hcard]; omega
    · refine Finset.ssubset_iff_subset_ne.mpr ⟨hsub, ?_⟩
      intro heq
      have := congrArg Finset.card heq
      rw [hcard, Finset.card_range] at this
      omega
    · intro hnil
      have h1 := complement_toFinset N c
      rw [hnil] at h1
      have h2 := congrArg Finset.card h1
      rw [Finset.card_sdiff hsub, hcard, Finset.card_range] at h2
      simp at h2
      omega
    · intro j hj
      simp only [complement, List.mem_filter, decide_eq_true_eq] at hj
      exact hj.2
    · intro j hj
      by_cases hjc : j ∈ c
      · exact Or.inl hjc
      · right
        simp only [complement, List.mem_filter, List.mem_range, decide_eq_true_eq]
        exact ⟨hj, hjc⟩
  · intro r hr
    rw [List.mem_range'_1] at hr
    have := Nat.div_le_self N 2
    omega

section Count

/-- The accepting combinations of an event with one photon and two jets at rest
of energy 91: both `{0}` and `{1}` pass. -/
theorem acceptedCount_two_jets :
    acceptedCount restMass { photons := 1, jets := [91, 91] } = 2 := by
  have h2 : combListOf 2 = some [[0], [1]] := by decide
  have ha : accepts restMass [91, 91] [0] = true := by
    simp [accepts, accept, Z1, Z2, restMass, ZMass, margin, List.range_succ]
    norm_num
  have hb : accepts restMass [91, 91] [1] = true := by
    simp [accepts, accept, Z1, Z2, restMass, ZMass, margin, List.range_succ]
    norm_num
  simp [acceptedCount, skipEvent, h2, ha, hb]

/-- C10 (matching-event count), evaluated on a chain of 100 events, each with one
photon and two jets at rest of energy 91: every event passes the filter and has
an accepting combination, so 100 events match; `proper_events` ends at 200 and
the reported percentage is 200. -/
theorem proper_events_overcount :
    ∃ st, Runner6 restMass (List.replicate 100 { photons := 1, jets := [91, 91] }) = some st ∧
      st.proper_events = 200 ∧
      matchingEvents restMass (List.replicate 100 { photons := 1, jets := [91, 91] }) = 100 ∧
      percentage st.proper_events 100 = 200 := by
  obtain ⟨st, h1, h2⟩ := eventLoop_count restMass 100 (Nat.le_refl _)
    (List.replicate 100 { photons := 1, jets := [91, 91] }) 0 { hist := [], proper_events := 0 }
  have hp : st.proper_events = 200 := by
    rw [h2, List.map_replicate, acceptedCount_two_jets]
    simp
  refine ⟨st, ?_, hp, ?_, ?_⟩
  · unfold Runner6
    rw [List.length_replicate]
    exact h1
  · unfold matchingEvents
    rw [List.countP_replicate, acceptedCount_two_jets]
    simp
  · rw [hp]
    norm_num [percentage]

end Count

/-! ## Further lemmas on the enumeration -/

theorem subsetsAsc_eq_nil {n r : Nat} (h : n < r) : subsetsAsc n r = [] := by
  apply List.eq_nil_of_length_eq_zero
  rw [subsetsAsc_length, Nat.choose_eq_zero_of_lt h]

theorem subsetsAsc_zero (n : Nat) : subsetsAsc n 0 = [[]] := by
  cases n <;> rfl

theorem subsetsAsc_self (n : Nat) : subsetsAsc n n = [List.range n] := by
  induction n with
  | zero => rfl
  | succ n ih =>
    rw [subsetsAsc, ih, subsetsAsc_eq_nil (Nat.lt_succ_self n), List.range_succ_eq_map]
    rfl

theorem sum_map_range' (f : Nat → Nat) (k : Nat) :
    ((List.range' 1 k).map f).sum = ∑ r ∈ Finset.Icc 1 k, f r := by
  induction k with
  | zero => simp
  | succ k ih =>
    rw [List.range'_1_concat, List.map_append, List.sum_append, ih,
      Finset.sum_Icc_succ_top (by omega)]
    simp [Nat.add_comm]

theorem lex_map_succ {a b : List Nat} (h : List.Lex (· < ·) a b) :
    List.Lex (· < ·) (a.map Nat.succ) (b.map Nat.succ) := by
  induction h with
  | nil => exact List.Lex.nil
  | cons _ ih => exact List.Lex.cons ih
  | rel h => exact List.Lex.rel (Nat.succ_lt_succ h)

/-- The reference enumeration is strictly increasing in the lexicographic
order. -/
theorem subsetsAsc_lex (n r : Nat) : (subsetsAsc n r).Pairwise (List.Lex (· < ·)) := by
  induction n generalizing r with
  | zero =>
    cases r with
    | zero => simp [subsetsAsc]
    | succ r => simp [subsetsAsc]
  | succ n ih =>
    cases r with
    | zero => simp [subsetsAsc]
    | succ r =>
      rw [subsetsAsc, List.pairwise_append]
      refine ⟨?_, ?_, ?_⟩
      · exact (ih r).map _ (fun a b hab => List.Lex.cons (lex_map_succ hab))
      · exact (ih (r + 1)).map _ (fun a b hab => lex_map_succ hab)
      · intro a ha b hb
        obtain ⟨c, _, rfl⟩ := List.mem_map.mp ha
        obtain ⟨d, hd, rfl⟩ := List.mem_map.mp hb
        have hlen := ((mem_subsetsAsc n (r + 1) d).mp hd).1
        cases d with
        | nil => simp at hlen
        | cons x d => exact List.Lex.rel (Nat.succ_pos x)

theorem map_succ_range' (s k : Nat) :
    (List.range' s k).map Nat.succ = List.range' (s + 1) k := by
  induction k generalizing s with
  | zero => rfl
  | succ k ih => rw [List.range'_succ, List.map_cons, ih, List.range'_succ]

theorem subsetsAsc_head {n r : Nat} (h : r ≤ n) :
    (subsetsAsc n r).head? = some (List.range r) := by
  induction n generalizing r with
  | zero =>
    obtain rfl : r = 0 := by omega
    rfl
  | succ n ih =>
    cases r with
    | zero => rfl
    | succ r =>
      rw [subsetsAsc, List.head?_append, List.head?_map, ih (by omega : r ≤ n),
        List.range_succ_eq_map]
      rfl

theorem subsetsAsc_getLast {n r : Nat} (h : r ≤ n) :
    (subsetsAsc n r).getLast? = some (List.range' (n - r) r) := by
  induction n generalizing r with
  | zero =>
    obtain rfl : r = 0 := by omega
    rfl
  | succ n ih =>
    cases r with
    | zero => rfl
    | succ r =>
      rw [subsetsAsc, List.getLast?_append, List.getLast?_map, List.getLast?_map]
      rcases Nat.lt_or_ge n (r + 1) with h1 | h1
      · have hr : r = n := by omega
        subst hr
        rw [subsetsAsc_eq_nil h1, ih (Nat.le_refl _)]
        simp only [List.getLast?_nil, Option.map_none', Option.map_some', Option.or_some,
          Nat.sub_self, Option.none_or, map_succ_range']
        rw [List.range'_succ]
      · rw [ih h1]
        simp only [Option.map_some', Option.or_some, map_succ_range']
        congr 2
        omega

/-! ## Further claims -/

/-- C11 (progress-reporting division by zero): for `1 ≤ allEntries ≤ 99` the
divisor `allEntries/100` of the progress condition is 0, the condition fails at
the first iteration (`entry = 0`) and the run of a chain of that length does not
reach its summary; for `allEntries ≥ 100` the divisor is at least 1 and the
condition is evaluated at every iteration; for `allEntries = 0` the loop body is
not entered and the run ends in the initial state. -/
theorem progress_division_by_zero {V : Type} [AddCommMonoid V] {K : Type}
    [LinearOrderedField K] (M : V → K) (allEntries : Nat) :
    (1 ≤ allEntries ∧ allEntries ≤ 99 →
      allEntries / 100 = 0 ∧ progressCheck 0 allEntries = none ∧
      ∀ chain : List (Event V), chain.length = allEntries → Runner6 M chain = none) ∧
    (100 ≤ allEntries →
      1 ≤ allEntries / 100 ∧
      ∀ entry, progressCheck entry allEntries = some (entry % (allEntries / 100) == 0)) ∧
    (allEntries = 0 →
      ∀ chain : List (Event V), chain.length = allEntries →
        Runner6 M chain = some { hist := [], proper_events := 0 }) := by
  refine ⟨?_, ?_, ?_⟩
  · rintro ⟨h1, h2⟩
    have hd : allEntries / 100 = 0 := Nat.div_eq_of_lt (by omega)
    refine ⟨hd, by simp [progressCheck, hd], ?_⟩
    intro chain hlen
    cases chain with
    | nil => simp at hlen; omega
    | cons ev rest =>
      unfold Runner6
      rw [hlen, eventLoop]
      simp [progressCheck, hd]
  · intro h
    have hd : 1 ≤ allEntries / 100 := Nat.div_pos h (by decide)
    refine ⟨hd, ?_⟩
    intro entry
    have : allEntries / 100 ≠ 0 := by omega
    simp [progressCheck, this]
  · intro h chain hlen
    rw [h] at hlen
    rw [List.length_eq_zero.mp hlen]
    rfl

/-- C13 (pooling is append-only and ordered by `r`): `comb(N, r, L)` keeps the
entries of `L` in place and appends after them what it produces on an empty
list; the combination list of an event with `N` jets is the concatenation of the
results of `comb(N, 1, ·)`, …, `comb(N, floor(N/2), ·)` in this order, and its
length is the sum of `C(N,r)` over `r = 1 … floor(N/2)`. -/
theorem pooling_append_only (N : Nat) :
    (∀ (r : Nat) (L : List (List Nat)),
      ∃ new, comb N r [] = some new ∧ comb N r L = some (L ++ new)) ∧
    (∃ pooled, combListOf N = some pooled ∧
      pooled = (List.range' 1 (N / 2)).flatMap (fun r => (comb N r []).getD []) ∧
      pooled.length = ∑ r ∈ Finset.Icc 1 (N / 2), N.choose r) := by
  refine ⟨fun r L => ⟨subsetsAsc N (min r N), by rw [comb_eq]; rfl, comb_eq N r L⟩,
    _, combListOf_eq N, ?_, ?_⟩
  · apply List.flatMap_congr
    intro r hr
    rw [List.mem_range'_1] at hr
    have := Nat.div_le_self N 2
    rw [comb_eq_of_le (by omega)]
    rfl
  · rw [List.length_flatMap, ← sum_map_range']
    congr 1
    apply List.map_congr_left
    intro r _
    exact subsetsAsc_length N r

/-- C16 (out-of-range subset sizes): `comb(N, 0, combList)` returns and appends
exactly one entry, the empty sequence; for `r > N`, `comb(N, r, combList)`
returns and appends exactly one entry, the sequence `0, …, N-1` of length `N`,
although `C(N,r) = 0`. -/
theorem comb_out_of_range (N r : Nat) (combList : List (List Nat)) :
    comb N 0 combList = some (combList ++ [[]]) ∧
    (N < r → comb N r combList = some (combList ++ [List.range N]) ∧
      (List.range N).length = N ∧ N.choose r = 0) ∧
    comb 3 0 [] = some [[]] ∧ comb 3 5 [] = some [[0, 1, 2]] := by
  refine ⟨?_, ?_, by decide, by decide⟩
  · rw [comb_eq, Nat.zero_min, subsetsAsc_zero]
  · intro h
    refine ⟨?_, List.length_range N, Nat.choose_eq_zero_of_lt h⟩
    rw [comb_eq, Nat.min_eq_right (Nat.le_of_lt h), subsetsAsc_self]

/-- C15 (deterministic lexicographic order): for `r ≤ N` (in particular
`1 ≤ r ≤ N`) the entries that `comb(N, r, combList)` appends are strictly
increasing in the lexicographic order of their index sequences, the first is
`0, …, r-1` and the last is `N-r, …, N-1`; for `N = 4`, `r = 2` they are
`[0,1], [0,2], [0,3], [1,2], [1,3], [2,3]`. -/
theorem comb_lex_order (N r : Nat) (h : r ≤ N) (combList : List (List Nat)) :
    (∃ new, comb N r combList = some (combList ++ new) ∧
      new.Pairwise (List.Lex (· < ·)) ∧
      new.head? = some (List.range r) ∧
      new.getLast? = some (List.range' (N - r) r)) ∧
    comb 4 2 [] = some [[0, 1], [0, 2], [0, 3], [1, 2], [1, 3], [2, 3]] :=
  ⟨⟨subsetsAsc N r, comb_eq_of_le h combList, subsetsAsc_lex N r, subsetsAsc_head h,
    subsetsAsc_getLast h⟩, by decide⟩

/-- Instance for `N = 5`, `r = 3` and an empty list. -/
theorem comb_lex_order_witness :
    3 ≤ 5 ∧
    ((∃ new, comb 5 3 [] = some ([] ++ new) ∧
      new.Pairwise (List.Lex (· < ·)) ∧
      new.head? = some (List.range 3) ∧
      new.getLast? = some (List.range' (5 - 3) 3)) ∧
    comb 4 2 [] = some [[0, 1], [0, 2], [0, 3], [1, 2], [1, 3], [2, 3]]) :=
  ⟨by decide, comb_lex_order 5 3 (by decide) []⟩

theorem accept_iff {V : Type} {K : Type} [LinearOrderedField K] (M : V → K) (z1 z2 : V) :
    accept M z1 z2 = true ↔ inWindow (M z1) ∧ inWindow (M z2) := by
  unfold accept inWindow
  simp only [Bool.and_eq_true, decide_eq_true_eq]
  tauto

section Scenario

variable {V : Type} [AddCommMonoid V] {K : Type} [LinearOrderedField K]

/-- The state after a processed event: every accepting entry of the combination
list adds the invariant mass of the sum of all jets and increments the counter. -/
theorem processEvent_replicate (M : V → K) (st : State K) (ev : Event V)
    (h : skipEvent ev.photons ev.jets.length = false) {L : List (List Nat)}
    (hL : combListOf ev.jets.length = some L) :
    processEvent M st ev =
      some { hist := st.hist ++ List.replicate (L.countP (accepts M ev.jets)) (M ev.jets.sum),
             proper_events := st.proper_events + L.countP (accepts M ev.jets) } := by
  rw [processEvent_run M st ev h hL]
  have h1 := evalCombs_hist M ev.jets L st
  have h2 := evalCombs_count M ev.jets L st
  have h3 : (L.filter (accepts M ev.jets)).map
      (fun c => M (0 + (Z1 ev.jets c + Z2 ev.jets c))) =
      List.replicate (L.countP (accepts M ev.jets)) (M ev.jets.sum) := by
    rw [List.eq_replicate_iff]
    refine ⟨by rw [List.length_map, List.countP_eq_length_filter], ?_⟩
    intro x hx
    obtain ⟨c, hc, rfl⟩ := List.mem_map.mp hx
    obtain ⟨_, hp, hb⟩ := (mem_combListOf hL c).mp (List.mem_filter.mp hc).1
    rw [zero_add, Z1_add_Z2 ev.jets c (hp.imp (fun h => Nat.ne_of_lt h)) hb]
  rw [h3] at h1
  cases hst : evalCombs M ev.jets L st with
  | mk hist cnt =>
    rw [hst] at h1 h2
    simp only at h1 h2
    rw [h1, h2]

theorem combListOf_three : combListOf 3 = some [[0], [1], [2]] := by decide

theorem accepts_three (M : V → K) (j0 j1 j2 : V) :
    accepts M [j0, j1, j2] [0] = accept M j0 (j1 + j2) ∧
    accepts M [j0, j1, j2] [1] = accept M j1 (j0 + j2) ∧
    accepts M [j0, j1, j2] [2] = accept M j2 (j0 + j1) := by
  simp [accepts, Z1, Z2, List.range_succ]

/-- C12 (end-to-end scenario 1), as the code has it: for an event with one photon
and three jets in which the masses of jet0 alone and of jet1 + jet2 both lie in
the window, the grouping `{0}` against `{1,2}` is accepted, and processing the
event adds exactly `k` histogram entries, each the invariant mass of
jet0 + jet1 + jet2, and raises `proper_events` by `k`, where `k` is the number of
accepting entries of the combination list `{0}`, `{1}`, `{2}`: 1 for `{0}`, plus 1
if `{1}` against `{0,2}` passes the window test, plus 1 if `{2}` against `{0,1}`
passes.  In particular there is exactly one entry when neither of the other two
groupings passes. -/
theorem scenario_three_jets (M : V → K) (st : State K) (j0 j1 j2 : V)
    (h0 : inWindow (M j0)) (h12 : inWindow (M (j1 + j2))) :
    ∃ st', processEvent M st { photons := 1, jets := [j0, j1, j2] } = some st' ∧
      st'.hist = st.hist ++ List.replicate
        (1 + (if accept M j1 (j0 + j2) = true then 1 else 0) +
          (if accept M j2 (j0 + j1) = true then 1 else 0)) (M (j0 + j1 + j2)) ∧
      st'.proper_events = st.proper_events +
        (1 + (if accept M j1 (j0 + j2) = true then 1 else 0) +
          (if accept M j2 (j0 + j1) = true then 1 else 0)) ∧
      (combListOf 3 = some [[0], [1], [2]] ∧
        [[0], [1], [2]].countP (accepts M [j0, j1, j2]) =
          1 + (if accept M j1 (j0 + j2) = true then 1 else 0) +
            (if accept M j2 (j0 + j1) = true then 1 else 0)) ∧
      (accepts M [j0, j1, j2] [0] = true ∧
        accepts M [j0, j1, j2] [1] = accept M j1 (j0 + j2) ∧
        accepts M [j0, j1, j2] [2] = accept M j2 (j0 + j1)) ∧
      (accept M j1 (j0 + j2) = true ↔ inWindow (M j1) ∧ inWindow (M (j0 + j2))) ∧
      (accept M j2 (j0 + j1) = true ↔ inWindow (M j2) ∧ inWindow (M (j0 + j1))) ∧
      (¬ (inWindow (M j1) ∧ inWindow (M (j0 + j2))) →
        ¬ (inWindow (M j2) ∧ inWindow (M (j0 + j1))) →
        st'.hist = st.hist ++ [M (j0 + j1 + j2)] ∧
        st'.proper_events = st.proper_events + 1) := by
  have hrun := processEvent_replicate M st { photons := 1, jets := [j0, j1, j2] }
    rfl combListOf_three
  obtain ⟨a0, a1, a2⟩ := accepts_three M j0 j1 j2
  have hsum : ([j0, j1, j2] : List V).sum = j0 + j1 + j2 := by
    simp [add_assoc]
  have hacc : accepts M [j0, j1, j2] [0] = true := by
    rw [a0, accept_iff]
    exact ⟨h0, h12⟩
  have hk : [[0], [1], [2]].countP (accepts M [j0, j1, j2]) =
      1 + (if accept M j1 (j0 + j2) = true then 1 else 0) +
        (if accept M j2 (j0 + j1) = true then 1 else 0) := by
    simp only [List.countP_cons, List.countP_nil, hacc, a1, a2]
    split_ifs <;> simp
  simp only [hk, hsum] at hrun
  refine ⟨_, hrun, rfl, rfl, ⟨combListOf_three, hk⟩, ⟨hacc, a1, a2⟩, accept_iff M _ _,
    accept_iff M _ _, ?_⟩
  intro h1 h2
  have b1 : ¬ accept M j1 (j0 + j2) = true := fun h => h1 ((accept_iff M _ _).mp h)
  have b2 : ¬ accept M j2 (j0 + j1) = true := fun h => h2 ((accept_iff M _ _).mp h)
  rw [if_neg b1, if_neg b2]
  exact ⟨rfl, rfl⟩

/-- Instance for three jets at rest of energies 91, 90 and 1, where two
groupings pass. -/
theorem scenario_three_jets_witness :
    (inWindow (restMass 91) ∧ inWindow (restMass (90 + 1))) ∧
    ∃ st', processEvent restMass { hist := [], proper_events := 0 }
        { photons := 1, jets := [91, 90, 1] } = some st' ∧
      st'.hist = [] ++ List.replicate
        (1 + (if accept restMass (90 : ℚ) (91 + 1) = true then 1 else 0) +
          (if accept restMass (1 : ℚ) (91 + 90) = true then 1 else 0))
        (restMass (91 + 90 + 1)) ∧
      st'.proper_events = 0 +
        (1 + (if accept restMass (90 : ℚ) (91 + 1) = true then 1 else 0) +
          (if accept restMass (1 : ℚ) (91 + 90) = true then 1 else 0)) ∧
      (combListOf 3 = some [[0], [1], [2]] ∧
        [[0], [1], [2]].countP (accepts restMass [91, 90, 1]) =
          1 + (if accept restMass (90 : ℚ) (91 + 1) = true then 1 else 0) +
            (if accept restMass (1 : ℚ) (91 + 90) = true then 1 else 0)) ∧
      (accepts restMass [91, 90, 1] [0] = true ∧
        accepts restMass [91, 90, 1] [1] = accept restMass (90 : ℚ) (91 + 1) ∧
        accepts restMass [91, 90, 1] [2] = accept restMass (1 : ℚ) (91 + 90)) ∧
      (accept restMass (90 : ℚ) (91 + 1) = true ↔
        inWindow (restMass 90) ∧ inWindow (restMass (91 + 1))) ∧
      (accept restMass (1 : ℚ) (91 + 90) = true ↔
        inWindow (restMass 1) ∧ inWindow (restMass (91 + 90))) ∧
      (¬ (inWindow (restMass 90) ∧ inWindow (restMass (91 + 1))) →
        ¬ (inWindow (restMass 1) ∧ inWindow (restMass (91 + 90))) →
        st'.hist = [] ++ [restMass (91 + 90 + 1)] ∧
        st'.proper_events = 0 + 1) :=
  have h0 : inWindow (restMass 91) := by
    unfold inWindow restMass ZMass margin; constructor <;> norm_num
  have h12 : inWindow (restMass (90 + 1)) := by
    unfold inWindow restMass ZMass margin; constructor <;> norm_num
  ⟨⟨h0, h12⟩, scenario_three_jets restMass { hist := [], proper_events := 0 } 91 90 1 h0 h12⟩

end Scenario

/-- C12 (end-to-end scenario 1) fails as stated: for one photon and three jets at
rest of energies 91, 90 and 1, jet0 alone and jet1 + jet2 both have mass in the
window, and so have jet1 alone and jet0 + jet2; processing the event adds two
histogram entries, not one. -/
theorem three_jets_two_entries :
    inWindow (restMass 91) ∧ inWindow (restMass (90 + 1)) ∧
    ∃ st', processEvent restMass { hist := [], proper_events := 0 }
        { photons := 1, jets := [91, 90, 1] } = some st' ∧
      st'.hist = [182, 182] ∧ st'.hist.length ≠ 1 := by
  have hw : ∀ m : ℚ, inWindow m ↔ 811876 / 10000 < m ∧ m < 1011876 / 10000 := by
    intro m
    unfold inWindow ZMass margin
    norm_num
  have hrun := processEvent_replicate restMass { hist := [], proper_events := 0 }
    { photons := 1, jets := [91, 90, 1] } (by decide) combListOf_three
  obtain ⟨a0, a1, a2⟩ := accepts_three restMass (91 : ℚ) 90 1
  have c0 : accepts restMass [91, 90, 1] [0] = true := by
    rw [a0, accept_iff, hw, hw]; unfold restMass; norm_num
  have c1 : accepts restMass [91, 90, 1] [1] = true := by
    rw [a1, accept_iff, hw, hw]; unfold restMass; norm_num
  have c2 : accepts restMass [91, 90, 1] [2] = false := by
    rw [a2, ← Bool.not_eq_true, accept_iff, hw, hw]; unfold restMass; norm_num
  refine ⟨by rw [hw]; unfold restMass; norm_num, by rw [hw]; unfold restMass; norm_num,
    _, hrun, ?_, ?_⟩
  · simp [List.countP_cons, c0, c1, c2, restMass, List.replicate]
    norm_num
  · simp [List.countP_cons, c0, c1, c2]

/-! ## Multiplicity of a bipartition in the combination list -/

theorem pooled_nodup (N k : Nat) : ((List.range' 1 k).flatMap (subsetsAsc N)).Nodup := by
  rw [List.nodup_flatMap]
  refine ⟨fun r _ => subsetsAsc_nodup N r, ?_⟩
  refine (List.nodup_range' 1 k).imp ?_
  intro a b hab c hca hcb
  have h1 := ((mem_subsetsAsc N a c).mp hca).1
  have h2 := ((mem_subsetsAsc N b c).mp hcb).1
  exact hab (h1.symm.trans h2)

theorem countP_eq_one_of_unique {α : Type} (p : α → Bool) (a : α) (L : List α)
    (hnd : L.Nodup) (hp : ∀ c ∈ L, p c = true ↔ c = a) (hmem : a ∈ L) : L.countP p = 1 := by
  induction L with
  | nil => simp at hmem
  | cons x L ih =>
    rw [List.nodup_cons] at hnd
    rw [List.countP_cons]
    by_cases hx : x = a
    · subst hx
      have hzero : L.countP p = 0 := by
        rw [List.countP_eq_zero]
        intro c hc hpc
        have := (hp c (List.mem_cons_of_mem _ hc)).mp hpc
        rw [this] at hc
        exact hnd.1 hc
      rw [hzero, if_pos ((hp x (List.mem_cons_self _ _)).mpr rfl)]
    · have hxp : ¬ p x = true := fun h => hx ((hp x (List.mem_cons_self _ _)).mp h)
      rw [if_neg hxp, Nat.add_zero]
      apply ih hnd.2 (fun c hc => hp c (List.mem_cons_of_mem _ hc))
      rcases List.mem_cons.mp hmem with h | h
      · exact absurd h.symm hx
      · exact h

/-- In a list of distinct ascending sequences, exactly one entry has the set of
indices `S` when the ascending listing of `S` is an entry. -/
theorem countP_toFinset_eq_one (L : List (List Nat)) (hnd : L.Nodup)
    (hasc : ∀ c ∈ L, c.Pairwise (· < ·)) (S : Finset Nat) (hmem : S.sort (· ≤ ·) ∈ L) :
    L.countP (fun c => decide (c.toFinset = S)) = 1 := by
  apply countP_eq_one_of_unique _ (S.sort (· ≤ ·)) L hnd _ hmem
  intro c hc
  simp only [decide_eq_true_eq]
  constructor
  · intro h
    apply eq_of_toFinset_eq (hasc c hc) (Finset.sort_sorted_lt S)
    rw [h, Finset.sort_toFinset]
  · intro h
    rw [h, Finset.sort_toFinset]

/-- No entry of a list of ascending sequences has the set of indices `S` when
the ascending listing of `S` is not an entry. -/
theorem countP_toFinset_eq_zero (L : List (List Nat))
    (hasc : ∀ c ∈ L, c.Pairwise (· < ·)) (S : Finset Nat) (hmem : S.sort (· ≤ ·) ∉ L) :
    L.countP (fun c => decide (c.toFinset = S)) = 0 := by
  rw [List.countP_eq_zero]
  intro c hc h
  simp only [decide_eq_true_eq] at h
  apply hmem
  have : c = S.sort (· ≤ ·) := by
    apply eq_of_toFinset_eq (hasc c hc) (Finset.sort_sorted_lt S)
    rw [h, Finset.sort_toFinset]
  rw [← this]
  exact hc

theorem combListOf_four :
    combListOf 4 =
      some [[0], [1], [2], [3], [0, 1], [0, 2], [0, 3], [1, 2], [1, 3], [2, 3]] := by
  decide

/-- The accepting combinations of four jets at rest of energies 45, 46, 10 and
81: only the grouping `{0,1}` against `{2,3}` passes, and it is listed from both
sides. -/
theorem filter_accepts_four :
    [[0], [1], [2], [3], [0, 1], [0, 2], [0, 3], [1, 2], [1, 3], [2, 3]].filter
      (accepts restMass [45, 46, 10, 81]) = [[0, 1], [2, 3]] := by
  have hw : ∀ a b : ℚ, accept restMass a b =
      (decide (811876 / 10000 < a) && decide (a < 1011876 / 10000) &&
        decide (811876 / 10000 < b) && decide (b < 1011876 / 10000)) := by
    intro a b
    unfold accept restMass ZMass margin
    norm_num
  simp only [List.filter, accepts, Z1, Z2, hw]
  norm_num [List.range_succ]

/-- C14 (balanced splits are represented twice): in the combination list of an
event with `N` jets, a bipartition of the indices into non-empty parts of unequal
size is represented by exactly one entry, its smaller side; a bipartition into
two parts of equal size is represented by exactly two entries, one for each side.
For four jets at rest of energies 45, 46, 10 and 81 the only passing grouping is
`{0,1}` against `{2,3}`; it is accepted as `{0,1}` and as `{2,3}`, adds two
histogram entries and raises `proper_events` by 2. -/
theorem balanced_splits_twice (N : Nat) :
    (∃ L, combListOf N = some L ∧
      ∀ S : Finset Nat, S.Nonempty → S ⊂ Finset.range N →
        (S.card < (Finset.range N \ S).card →
          L.countP (fun c => decide (c.toFinset = S)) = 1 ∧
          L.countP (fun c => decide (c.toFinset = Finset.range N \ S)) = 0) ∧
        (S.card = (Finset.range N \ S).card →
          L.countP (fun c => decide (c.toFinset = S)) = 1 ∧
          L.countP (fun c => decide (c.toFinset = Finset.range N \ S)) = 1)) ∧
    (∃ L st', combListOf 4 = some L ∧
      L.filter (accepts restMass [45, 46, 10, 81]) = [[0, 1], [2, 3]] ∧
      complement 4 [0, 1] = [2, 3] ∧
      processEvent restMass { hist := [], proper_events := 0 }
        { photons := 1, jets := [45, 46, 10, 81] } = some st' ∧
      st'.hist = [182, 182] ∧ st'.proper_events = 2) := by
  constructor
  · refine ⟨_, combListOf_eq N, ?_⟩
    intro S hne hss
    have hL := combListOf_eq N
    have hnd := pooled_nodup N (N / 2)
    have hasc : ∀ c ∈ (List.range' 1 (N / 2)).flatMap (subsetsAsc N), c.Pairwise (· < ·) :=
      fun c hc => ((mem_combListOf hL c).mp hc).2.1
    have h1 : 1 ≤ S.card := Finset.card_pos.mpr hne
    have hc : (Finset.range N \ S).card = N - S.card := by
      rw [Finset.card_sdiff hss.subset, Finset.card_range]
    have h2 : S.card < N := by
      have := Finset.card_lt_card hss
      rwa [Finset.card_range] at this
    constructor
    · intro hlt
      rw [hc] at hlt
      constructor
      · exact countP_toFinset_eq_one _ hnd hasc S
          (sort_mem_combListOf hL hss.subset h1 (by omega))
      · apply countP_toFinset_eq_zero _ hasc
        intro hmem
        have := ((mem_combListOf hL _).mp hmem).1.2
        rw [Finset.length_sort, hc] at this
        omega
    · intro heq
      rw [hc] at heq
      constructor
      · exact countP_toFinset_eq_one _ hnd hasc S
          (sort_mem_combListOf hL hss.subset h1 (by omega))
      · apply countP_toFinset_eq_one _ hnd hasc
        apply sort_mem_combListOf hL Finset.sdiff_subset
        · rw [hc]; omega
        · rw [hc]; omega
  · have hrun := processEvent_replicate restMass { hist := [], proper_events := 0 }
      { photons := 1, jets := [45, 46, 10, 81] } (by decide) combListOf_four
    have hcount : List.countP (accepts restMass [45, 46, 10, 81])
        [[0], [1], [2], [3], [0, 1], [0, 2], [0, 3], [1, 2], [1, 3], [2, 3]] = 2 := by
      rw [List.countP_eq_length_filter, filter_accepts_four]
      rfl
    refine ⟨_, _, combListOf_four, filter_accepts_four, by decide, hrun, ?_, ?_⟩
    · simp only [hcount]
      norm_num [restMass, List.replicate]
    · simp only [hcount]

end ParticleX
